import Mathlib

/-!
Verification development for the `db_tree` repository (sparse Merkle tree with
an append-only node store, `src/merkle_tree.rs` and `src/mock_db.rs`).

The Rust code is shallowly embedded as follows:
* the digest type `HashOut` and the hash capability (`two_to_one`, leaf
  hashing) are parameters (`D`, `t2o`, `hashLeaf`), as in the Rust generics;
* `HashMap`s become functions into `Option` (with `insert` as pointwise
  override, matching `HashMap::insert`'s overwrite semantics);
* Rust panics (`assert!`, `assert_eq!`, `.expect`, `.unwrap`) and the
  `anyhow` error of `verify` become `Except MerkleError` results, one
  constructor per distinct failure site;
* mutation becomes explicit state passing: operations return the new
  `MerkleTree` and `MockDB`.
-/

/-- Error outcomes of the embedded operations.  Each constructor corresponds
to one failure site of the Rust code: the `assert_eq!(index_bits.len(), self.height)`
in `update_leaf`/`prove`/`prove_with_given_root` (`InvalidIndexLength`), the
`assert!(path.len() <= self.height)` in `get_node_hash` (`PathTooLong`), the
`assert!(!path.is_empty())` in `get_sibling_hash` (`PathEmpty`), the
`zero_hashes` indexing (`IndexOutOfRange`, unreachable on well-formed trees),
the `.expect("cannot find node")` in `prove_with_given_root` (`NodeNotFound`),
the `.unwrap()` on a child in `prove_with_given_root` (`MissingChild`), and
the `anyhow::ensure!` of `MerkleProof::verify` (`VerificationFailed`). -/
inductive MerkleError where
  | InvalidIndexLength
  | PathTooLong
  | PathEmpty
  | IndexOutOfRange
  | NodeNotFound
  | MissingChild
  | VerificationFailed
  deriving DecidableEq, Repr

/-- `mock_db.rs`: `Node` — the two child digests recorded under a parent
digest.  `merkle_tree.rs` stores `Option`al children (leaf records have
`left: None, right: None`). -/
structure Node (D : Type) where
  left : Option D
  right : Option D
  deriving DecidableEq, Repr

/-- `mock_db.rs`: `MockDB` — the node store, a map from a parent digest to
its two children.  Embedded as a function into `Option`. -/
structure MockDB (D : Type) where
  nodes : D → Option (Node D)

/-- `MockDB::new`. -/
def MockDB.empty (D : Type) : MockDB D := ⟨fun _ => none⟩

/-- `MockDB::insert` — `HashMap::insert`, overwriting any previous entry. -/
def MockDB.insert [DecidableEq D] (db : MockDB D) (key : D) (node : Node D) :
    MockDB D :=
  ⟨fun k => if k = key then some node else db.nodes k⟩

/-- `MockDB::get`. -/
def MockDB.get (db : MockDB D) (key : D) : Option (Node D) := db.nodes key

/-- `merkle_tree.rs`: `MerkleTree` — height, the sparse map from big-endian
paths to non-default node hashes, and the zero-hash table. -/
structure MerkleTree (D : Type) where
  height : Nat
  node_hashes : List Bool → Option D
  zero_hashes : List D

/-- Helper shared by `MerkleTree::new`: one pass of the construction loop.
Returns the zero-hash list in push order (`[h, t2o h h, ...]`) together with
the node store extended with every `t2o h h ↦ (h, h)` record, exactly as the
loop in `MerkleTree::new` does. -/
def newLoop [DecidableEq D] (t2o : D → D → D) (db : MockDB D) (h : D) :
    Nat → List D × MockDB D
  | 0 => ([h], db)
  | n + 1 =>
    let new_h := t2o h h
    let db' := db.insert new_h ⟨some h, some h⟩
    let r := newLoop t2o db' new_h n
    (h :: r.1, r.2)

/-- `MerkleTree::new`: builds the zero-hash chain from the empty-leaf digest,
records each `(h, h) ↦ t2o h h` node in the store, reverses the chain into
the `zero_hashes` table, and starts with an empty sparse map. -/
def MerkleTree.new [DecidableEq D] (t2o : D → D → D) (db : MockDB D)
    (height : Nat) (empty_leaf_hash : D) : MerkleTree D × MockDB D :=
  let r := newLoop t2o db empty_leaf_hash height
  (⟨height, fun _ => none, r.1.reverse⟩, r.2)

/-- `MerkleTree::get_node_hash`: requires `path.len() <= height` (the Rust
`assert!`, embedded as `PathTooLong`); returns the sparse-map entry if
present, else `zero_hashes[path.len()]`. -/
def MerkleTree.get_node_hash (t : MerkleTree D) (path : List Bool) :
    Except MerkleError D :=
  if path.length ≤ t.height then
    match t.node_hashes path with
    | some h => .ok h
    | none =>
      match t.zero_hashes[path.length]? with
      | some z => .ok z
      | none => .error .IndexOutOfRange
  else .error .PathTooLong

/-- `MerkleTree::get_root` = `get_node_hash(&vec![])`. -/
def MerkleTree.get_root (t : MerkleTree D) : Except MerkleError D :=
  t.get_node_hash []

/-- The path with its last bit flipped, as computed inside
`MerkleTree::get_sibling_hash` (`path[last] = !path[last]`). -/
def flipLast (path : List Bool) : List Bool :=
  path.dropLast ++ [!(path.getLast?.getD false)]

/-- `MerkleTree::get_sibling_hash`: requires a non-empty path (the Rust
`assert!`, embedded as `PathEmpty`); returns the node hash at the path with
its last bit flipped. -/
def MerkleTree.get_sibling_hash (t : MerkleTree D) (path : List Bool) :
    Except MerkleError D :=
  if path.isEmpty then .error .PathEmpty
  else t.get_node_hash (flipLast path)

/-- The `while !path.is_empty()` loop of `MerkleTree::update_leaf`.  In the
Rust code `path` is the big-endian reversal of the little-endian `index_bits`
and each iteration pops the last element of `path`; popping the last element
of `index_bits.reverse()` consumes `index_bits` front to back, so the loop
recurses on the remaining little-endian bits `rem`, the current big-endian
path being `rem.reverse`.  Each iteration reads the sibling of the current
path from the (already partially updated) tree, combines, writes the parent
hash into the sparse map and records the parent's children in the store. -/
def updateLoop [DecidableEq D] (t2o : D → D → D) :
    MerkleTree D → MockDB D → D → List Bool →
      Except MerkleError (MerkleTree D × MockDB D)
  | t, db, _, [] => .ok (t, db)
  | t, db, h, b :: rest =>
    match t.get_sibling_hash ((b :: rest).reverse) with
    | .error e => .error e
    | .ok sibling =>
      let new_h := if b then t2o sibling h else t2o h sibling
      let t' : MerkleTree D :=
        { t with node_hashes := fun q =>
            if q = rest.reverse then some new_h else t.node_hashes q }
      let node : Node D :=
        if b then ⟨some sibling, some h⟩ else ⟨some h, some sibling⟩
      updateLoop t2o t' (db.insert new_h node) new_h rest

/-- `MerkleTree::update_leaf`: checks `index_bits.len() == height`
(`InvalidIndexLength` on failure), writes the leaf hash at the big-endian
path, records the leaf (childless) in the store, then runs the upward
loop. -/
def MerkleTree.update_leaf [DecidableEq D] (t2o : D → D → D)
    (t : MerkleTree D) (db : MockDB D) (index_bits : List Bool)
    (leaf_hash : D) : Except MerkleError (MerkleTree D × MockDB D) :=
  if index_bits.length = t.height then
    let path := index_bits.reverse
    let t1 : MerkleTree D :=
      { t with node_hashes := fun q =>
          if q = path then some leaf_hash else t.node_hashes q }
    let db1 := db.insert leaf_hash ⟨none, none⟩
    updateLoop t2o t1 db1 leaf_hash index_bits
  else .error .InvalidIndexLength

/-- `merkle_tree.rs`: `MerkleProof` — the sibling digests, leaf to root. -/
structure MerkleProof (D : Type) where
  siblings : List D
  deriving DecidableEq, Repr

/-- The `while` loop of `MerkleTree::prove`: as in `updateLoop`, popping the
last element of the big-endian path consumes the little-endian bits front to
back; each iteration collects the sibling of the current path. -/
def proveLoop (t : MerkleTree D) : List Bool → Except MerkleError (List D)
  | [] => .ok []
  | b :: rest =>
    match t.get_sibling_hash ((b :: rest).reverse) with
    | .error e => .error e
    | .ok s =>
      match proveLoop t rest with
      | .error e => .error e
      | .ok r => .ok (s :: r)

/-- `MerkleTree::prove`: checks the index length, then collects the siblings
along the path from the leaf up. -/
def MerkleTree.prove (t : MerkleTree D) (index_bits : List Bool) :
    Except MerkleError (MerkleProof D) :=
  if index_bits.length = t.height then
    match proveLoop t index_bits with
    | .error e => .error e
    | .ok siblings => .ok ⟨siblings⟩
  else .error .InvalidIndexLength

/-- The `while` loop of `MerkleTree::prove_with_given_root`.  Here the Rust
code does **not** reverse `index_bits`: it pops the last element of the
little-endian vector itself each iteration (`path.pop()`), looks the current
hash up in the store (`NodeNotFound` embeds the `.expect`), selects the child
matching the popped bit and records the other child as a sibling
(`MissingChild` embeds the `.unwrap()`s on the children). -/
def pwgrLoop [DecidableEq D] (db : MockDB D) (hash : D) (path : List Bool) :
    Except MerkleError (List D) :=
  if hne : path = [] then .ok []
  else
    match db.get hash with
    | none => .error .NodeNotFound
    | some node =>
      let b := path.getLast hne
      match (if b then node.right else node.left),
            (if b then node.left else node.right) with
      | some child, some sibling =>
        match pwgrLoop db child path.dropLast with
        | .error e => .error e
        | .ok rest => .ok (sibling :: rest)
      | _, _ => .error .MissingChild
termination_by path.length
decreasing_by
  simp only [List.length_dropLast]
  exact Nat.sub_lt (List.length_pos.mpr hne) Nat.one_pos

/-- `MerkleTree::prove_with_given_root`: checks the index length, walks the
node store from the supplied root, and reverses the collected siblings into
leaf-to-root order. -/
def MerkleTree.prove_with_given_root [DecidableEq D] (t : MerkleTree D)
    (db : MockDB D) (root : D) (index_bits : List Bool) :
    Except MerkleError (MerkleProof D) :=
  if index_bits.length = t.height then
    match pwgrLoop db root index_bits with
    | .error e => .error e
    | .ok siblings => .ok ⟨siblings.reverse⟩
  else .error .InvalidIndexLength

/-- `MerkleProof::dummy`: a proof of the given length filled with the default
digest. -/
def MerkleProof.dummy [Inhabited D] (height : Nat) : MerkleProof D :=
  ⟨List.replicate height default⟩

/-- `MerkleProof::height`. -/
def MerkleProof.heightOf (p : MerkleProof D) : Nat := p.siblings.length

/-- `MerkleProof::get_root`: starting from the hash of the leaf data, folds
the combiner over the zipped `(index_bits, siblings)` pairs, left child or
right child according to each little-endian bit. -/
def MerkleProof.get_root (t2o : D → D → D) (hashLeaf : V → D)
    (p : MerkleProof D) (leaf_data : V) (index_bits : List Bool) : D :=
  (index_bits.zip p.siblings).foldl
    (fun state bs => if bs.1 then t2o bs.2 state else t2o state bs.2)
    (hashLeaf leaf_data)

/-- `MerkleProof::verify`: recomputes the root and fails with
`VerificationFailed` (the `anyhow::ensure!`) when it differs from the
expected root.  It is a pure function: no tree or proof state exists to be
modified. -/
def MerkleProof.verify [DecidableEq D] (t2o : D → D → D) (hashLeaf : V → D)
    (p : MerkleProof D) (leaf_data : V) (index_bits : List Bool)
    (merkle_root : D) : Except MerkleError Unit :=
  if p.get_root t2o hashLeaf leaf_data index_bits = merkle_root then .ok ()
  else .error .VerificationFailed

/-- `usize_le_bits`: the `length` low bits of `num`, least significant
first (`n & 1 == 1` is `n % 2 == 1`, `n >>= 1` is `n / 2`). -/
def usize_le_bits : Nat → Nat → List Bool
  | _, 0 => []
  | n, l + 1 => (n % 2 == 1) :: usize_le_bits (n / 2) l

/-- Sequencing of `update_leaf` calls (used to state whole-scenario claims):
applies each `(index_bits, leaf_hash)` pair in order, propagating errors. -/
def applyUpdates [DecidableEq D] (t2o : D → D → D) :
    MerkleTree D × MockDB D → List (List Bool × D) →
      Except MerkleError (MerkleTree D × MockDB D)
  | p, [] => .ok p
  | (t, db), (bits, lh) :: rest =>
    match MerkleTree.update_leaf t2o t db bits lh with
    | .error e => .error e
    | .ok p' => applyUpdates t2o p' rest

/-!
Concrete digest instantiation.  The Rust code is generic over the hasher; for
concrete runs and for the historical-root scenario we instantiate the digest
type with a free term algebra: `FreeDigest.nodeD` plays `two_to_one` (an
injective pairing, as a collision-free hash is assumed to be) and
`FreeDigest.leafD` plays the external leaf hashing (its results never collide
with internal-node digests).
-/

/-- Free digest algebra: `leafD xs` are leaf-hash digests, `nodeD l r` is the
two-to-one combination of two digests. -/
inductive FreeDigest where
  | leafD : List Nat → FreeDigest
  | nodeD : FreeDigest → FreeDigest → FreeDigest
  deriving DecidableEq, Repr

instance : Inhabited FreeDigest := ⟨.leafD []⟩

instance : Inhabited (MerkleTree D) := ⟨⟨0, fun _ => none, []⟩⟩

instance : Inhabited (MockDB D) := ⟨⟨fun _ => none⟩⟩

/-- Payload of an `ok` result (used only to name concrete values in closed
statements). -/
def exOk [Inhabited α] (e : Except MerkleError α) : α := e.toOption.getD default

/-!  Helper definitions used by the proofs (not part of the embedding). -/

/-- Total version of `get_node_hash` for well-formed trees: the sparse-map
entry if present, else the zero-hash at the path's depth. -/
def nodeAtD [Inhabited D] (t : MerkleTree D) (p : List Bool) : D :=
  match t.node_hashes p with
  | some h => h
  | none => (t.zero_hashes[p.length]?).getD default

/-- The big-endian positions written by `updateLoop` when the remaining
little-endian bits are `rem`: the proper prefixes of the full path
`rem.reverse`, longest first. -/
def revTails : List Bool → List (List Bool)
  | [] => []
  | _ :: rest => rest.reverse :: revTails rest

/-- The fold performed by `MerkleProof::get_root` on the zipped
`(bit, sibling)` list. -/
def verFold (t2o : D → D → D) (init : D) (l : List (Bool × D)) : D :=
  l.foldl (fun state bs => if bs.1 then t2o bs.2 state else t2o state bs.2) init

/-- Structural companion of `pwgrLoop`: consuming the bits of the big-endian
path front to back (popping the last element of the little-endian vector is
the same as consuming its reversal head-first). -/
def pwgrAux [DecidableEq D] (db : MockDB D) : D → List Bool →
    Except MerkleError (List D)
  | _, [] => .ok []
  | hash, b :: rest =>
    match db.get hash with
    | none => .error .NodeNotFound
    | some node =>
      match (if b then node.right else node.left),
            (if b then node.left else node.right) with
      | some child, some sibling =>
        match pwgrAux db child rest with
        | .error e => .error e
        | .ok r => .ok (sibling :: r)
      | _, _ => .error .MissingChild

/-- The siblings collected by a successful store walk below the big-endian
position `pre`, along the remaining big-endian bits `s`, in root-to-leaf
order, expressed through the tree the walked root belonged to. -/
def walkSibs [Inhabited D] (t : MerkleTree D) : List Bool → List Bool → List D
  | _, [] => []
  | pre, b :: s => nodeAtD t (pre ++ [!b]) :: walkSibs t (pre ++ [b]) s

/-- Iterated self-combination: the digest of an all-default subtree of the
given height. -/
def dupIter (t2o : D → D → D) (e : D) : Nat → D
  | 0 => e
  | n + 1 => t2o (dupIter t2o e n) (dupIter t2o e n)

/-- Does the tree invariant used for the historical-root scenario hold:
every node strictly above the leaves is the combination of its two
children. -/
def TreeHashInv (t : MerkleTree FreeDigest) : Prop :=
  ∀ p : List Bool, p.length < t.height →
    nodeAtD t p = .nodeD (nodeAtD t (p ++ [false])) (nodeAtD t (p ++ [true]))

/-- Store soundness for the free digest algebra: whatever children the store
records under an internal digest are the digests it combines. -/
def DbGood (db : MockDB FreeDigest) : Prop :=
  ∀ l r n, db.get (.nodeD l r) = some n → n = ⟨some l, some r⟩

/-- The store knows every internal node of the tree. -/
def Covers (t : MerkleTree FreeDigest) (db : MockDB FreeDigest) : Prop :=
  ∀ p : List Bool, p.length < t.height → (db.get (nodeAtD t p)).isSome = true

/-- Combined invariant of reachable `(tree, store)` states in the scenario. -/
def FullInv (H : Nat) (t : MerkleTree FreeDigest) (db : MockDB FreeDigest) :
    Prop :=
  t.height = H ∧ t.zero_hashes.length = H + 1 ∧ TreeHashInv t ∧ DbGood db ∧
    Covers t db

/-- Is a digest a leaf-hash digest. -/
def FreeDigest.isLeafD : FreeDigest → Bool
  | .leafD _ => true
  | .nodeD _ _ => false

/-!  Concrete scenario of the historical-root test (`test_prove_with_given_root`):
height 32, leaves `0..10` inserted, root recorded, leaves `10..20` inserted,
then a proof for leaf 6 is rebuilt against the recorded root. -/

/-- The external leaf hashing of the scenario (`PoseidonHashOut::hash_inputs_u32(&[i])`),
modelled injectively in the free algebra. -/
def hashNat (i : Nat) : FreeDigest := .leafD [i]

/-- The empty-leaf digest of the scenario (`hash_inputs_u32(&[])`). -/
def emptyLeafFD : FreeDigest := .leafD []

/-- Tree and store freshly constructed at height 32. -/
def scenInit : MerkleTree FreeDigest × MockDB FreeDigest :=
  MerkleTree.new .nodeD (MockDB.empty FreeDigest) 32 emptyLeafFD

/-- First batch of updates: leaves `0..10`. -/
def ops1 : List (List Bool × FreeDigest) :=
  (List.range 10).map (fun i => (usize_le_bits i 32, hashNat i))

/-- Second batch of updates: leaves `10..20`. -/
def ops2 : List (List Bool × FreeDigest) :=
  (List.range 10).map (fun i => (usize_le_bits (10 + i) 32, hashNat (10 + i)))

/-!  Basic lemmas about lookups and paths. -/

theorem MockDB.get_insert [DecidableEq D] (db : MockDB D) (key k : D)
    (node : Node D) :
    (db.insert key node).get k = if k = key then some node else db.get k :=
  rfl

theorem get_node_hash_ok [Inhabited D] (t : MerkleTree D) (p : List Bool)
    (hz : t.zero_hashes.length = t.height + 1) (hp : p.length ≤ t.height) :
    t.get_node_hash p = .ok (nodeAtD t p) := by
  unfold MerkleTree.get_node_hash nodeAtD
  rw [if_pos hp]
  cases hnh : t.node_hashes p with
  | some h => simp
  | none =>
    have hlt : p.length < t.zero_hashes.length := by omega
    simp [List.getElem?_eq_getElem hlt]

theorem flipLast_length (p : List Bool) (h : p ≠ []) :
    (flipLast p).length = p.length := by
  unfold flipLast
  have : 0 < p.length := List.length_pos.mpr h
  simp [List.length_dropLast]
  omega

theorem flipLast_concat (l : List Bool) (b : Bool) :
    flipLast (l ++ [b]) = l ++ [!b] := by
  unfold flipLast
  simp

theorem get_sibling_hash_ok [Inhabited D] (t : MerkleTree D) (p : List Bool)
    (hz : t.zero_hashes.length = t.height + 1) (hne : p ≠ [])
    (hp : p.length ≤ t.height) :
    t.get_sibling_hash p = .ok (nodeAtD t (flipLast p)) := by
  unfold MerkleTree.get_sibling_hash
  rw [if_neg (by simpa [List.isEmpty_iff] using hne)]
  exact get_node_hash_ok t _ hz (by rw [flipLast_length p hne]; exact hp)

theorem flipLast_ne (l : List Bool) (h : l ≠ []) : flipLast l ≠ l := by
  unfold flipLast
  rw [List.getLast?_eq_getLast l h]
  intro heq
  have h2 := List.dropLast_append_getLast h
  have h3 : l.dropLast ++ [!l.getLast h] = l.dropLast ++ [l.getLast h] := by
    simpa using heq.trans h2.symm
  have h4 := List.append_cancel_left h3
  simp at h4

theorem mem_revTails_iff (rem q : List Bool) :
    q ∈ revTails rem ↔ q.length < rem.length ∧ q = rem.reverse.take q.length := by
  induction rem generalizing q with
  | nil => simp [revTails]
  | cons b rest ih =>
    simp only [revTails, List.mem_cons, List.reverse_cons]
    constructor
    · rintro (rfl | hmem)
      · constructor
        · simp
        · rw [List.length_reverse]
          exact (List.take_left' (by simp)).symm
      · obtain ⟨hlen, heq⟩ := ih q |>.mp hmem
        refine ⟨by simp; omega, ?_⟩
        rw [List.take_append_of_le_length (by simp; omega)]
        exact heq
    · rintro ⟨hlen, heq⟩
      simp only [List.length_cons] at hlen
      rcases Nat.lt_or_ge q.length rest.length with hlt | hge
      · right
        refine (ih q).mpr ⟨hlt, ?_⟩
        rw [List.take_append_of_le_length (by simp; omega)] at heq
        exact heq
      · left
        have hql : q.length = rest.length := by omega
        rw [heq, hql, List.take_left' (by simp)]

theorem length_lt_of_mem_revTails {rem q : List Bool} (h : q ∈ revTails rem) :
    q.length < rem.length :=
  ((mem_revTails_iff rem q).mp h).1

theorem take_mem_revTails (rem : List Bool) (j : Nat) (hj : j < rem.length) :
    rem.reverse.take j ∈ revTails rem := by
  refine (mem_revTails_iff rem _).mpr ⟨?_, ?_⟩
  · rw [List.length_take, List.length_reverse]
    omega
  · rw [List.length_take, List.length_reverse]
    congr 1
    omega

theorem not_mem_revTails_of_length {rem q : List Bool}
    (h : rem.length ≤ q.length) : q ∉ revTails rem := by
  intro hmem
  have := length_lt_of_mem_revTails hmem
  omega

theorem suffix_reverse_take {r rem : List Bool} (h : r <:+ rem) :
    rem.reverse.take r.length = r.reverse := by
  obtain ⟨u, rfl⟩ := h
  rw [List.reverse_append, List.take_left' (by simp)]

theorem flipLast_not_mem_revTails {r rem : List Bool} (hr : r ≠ [])
    (hsuf : r <:+ rem) : flipLast r.reverse ∉ revTails rem := by
  intro hmem
  have hrrev : r.reverse ≠ [] := by simpa using hr
  have hlen : (flipLast r.reverse).length = r.length := by
    rw [flipLast_length _ hrrev, List.length_reverse]
  have heq := ((mem_revTails_iff rem _).mp hmem).2
  rw [hlen, suffix_reverse_take hsuf] at heq
  exact flipLast_ne r.reverse hrrev heq

theorem concat_mem_revTails {rem q : List Bool} {b : Bool}
    (h : q ++ [b] ∈ revTails rem) : q ∈ revTails rem := by
  obtain ⟨hlen, heq⟩ := (mem_revTails_iff rem _).mp h
  simp only [List.length_append, List.length_cons, List.length_nil] at hlen
  refine (mem_revTails_iff rem q).mpr ⟨by omega, ?_⟩
  have hq : (q ++ [b]).take q.length = (rem.reverse.take (q ++ [b]).length).take q.length := by
    rw [← heq]
  rw [List.take_append_of_le_length (Nat.le_refl _), List.take_length,
    List.take_take] at hq
  have hmin : min q.length (q ++ [b]).length = q.length :=
    Nat.min_eq_left (by simp)
  rw [hmin] at hq
  exact hq

/-!  Construction lemmas. -/

theorem dupIter_shift (t2o : D → D → D) (e : D) (n : Nat) :
    dupIter t2o e (n + 1) = dupIter t2o (t2o e e) n := by
  induction n generalizing e with
  | zero => rfl
  | succ m ih =>
    have h1 : dupIter t2o e (m + 1 + 1)
        = t2o (dupIter t2o e (m + 1)) (dupIter t2o e (m + 1)) := rfl
    rw [h1, ih]
    rfl

theorem newLoop_fst [DecidableEq D] (t2o : D → D → D) (db : MockDB D) (h : D)
    (n : Nat) :
    (newLoop t2o db h n).1 = (List.range (n + 1)).map (dupIter t2o h) := by
  induction n generalizing db h with
  | zero => rfl
  | succ m ih =>
    show h :: (newLoop t2o _ (t2o h h) m).1 = _
    rw [ih]
    conv_rhs => rw [List.range_succ_eq_map, List.map_cons, List.map_map]
    congr 1
    apply List.map_congr_left
    intro j _
    simp only [Function.comp_apply]
    exact (dupIter_shift t2o h j).symm

theorem newLoop_snd_mono [DecidableEq D] (t2o : D → D → D) (db : MockDB D)
    (h : D) (n : Nat) (k : D) (hk : (db.get k).isSome = true) :
    ((newLoop t2o db h n).2.get k).isSome = true := by
  induction n generalizing db h with
  | zero => exact hk
  | succ m ih =>
    apply ih
    rw [MockDB.get_insert]
    split
    · rfl
    · exact hk

theorem newLoop_snd_mem [DecidableEq D] (t2o : D → D → D) (db : MockDB D)
    (h : D) (n : Nat) (j : Nat) (hj1 : 1 ≤ j) (hjn : j ≤ n) :
    ((newLoop t2o db h n).2.get (dupIter t2o h j)).isSome = true := by
  induction n generalizing db h j with
  | zero => omega
  | succ m ih =>
    rcases Nat.lt_or_ge j 2 with hj2 | hj2
    · have hj : j = 1 := by omega
      subst hj
      show ((newLoop t2o (db.insert (t2o h h) ⟨some h, some h⟩)
        (t2o h h) m).2.get (dupIter t2o h 1)).isSome = true
      apply newLoop_snd_mono
      rw [MockDB.get_insert]
      have hd : dupIter t2o h 1 = t2o h h := rfl
      rw [hd, if_pos rfl]
      rfl
    · have hjm : j - 1 ≤ m := by omega
      have h1 : dupIter t2o h j = dupIter t2o (t2o h h) (j - 1) := by
        have hj : j = (j - 1) + 1 := by omega
        conv_lhs => rw [hj]
        rw [dupIter_shift]
      rw [h1]
      show ((newLoop t2o (db.insert (t2o h h) ⟨some h, some h⟩)
        (t2o h h) m).2.get (dupIter t2o (t2o h h) (j - 1))).isSome = true
      exact ih _ _ _ (by omega) hjm

theorem newLoop_snd_form [DecidableEq D] (t2o : D → D → D) (db : MockDB D)
    (h : D) (n : Nat) (k : D) (nd : Node D)
    (hget : (newLoop t2o db h n).2.get k = some nd) :
    db.get k = some nd ∨ ∃ l, k = t2o l l ∧ nd = ⟨some l, some l⟩ := by
  induction n generalizing db h with
  | zero => exact Or.inl hget
  | succ m ih =>
    rcases ih _ _ hget with hdb | hform
    · rw [MockDB.get_insert] at hdb
      by_cases hk : k = t2o h h
      · rw [if_pos hk] at hdb
        right
        exact ⟨h, hk, (Option.some_injective _ hdb).symm⟩
      · rw [if_neg hk] at hdb
        exact Or.inl hdb
    · exact Or.inr hform

theorem new_fst_height [DecidableEq D] (t2o : D → D → D) (db : MockDB D)
    (H : Nat) (e : D) : (MerkleTree.new t2o db H e).1.height = H := rfl

theorem new_fst_node_hashes [DecidableEq D] (t2o : D → D → D) (db : MockDB D)
    (H : Nat) (e : D) (p : List Bool) :
    (MerkleTree.new t2o db H e).1.node_hashes p = none := rfl

theorem new_zero_hashes_eq [DecidableEq D] (t2o : D → D → D) (db : MockDB D)
    (H : Nat) (e : D) :
    (MerkleTree.new t2o db H e).1.zero_hashes
      = ((List.range (H + 1)).map (dupIter t2o e)).reverse := by
  show (newLoop t2o db e H).1.reverse = _
  rw [newLoop_fst]

theorem new_zero_len [DecidableEq D] (t2o : D → D → D) (db : MockDB D)
    (H : Nat) (e : D) :
    (MerkleTree.new t2o db H e).1.zero_hashes.length = H + 1 := by
  rw [new_zero_hashes_eq]
  simp

theorem new_zero_get [DecidableEq D] (t2o : D → D → D) (db : MockDB D)
    (H : Nat) (e : D) (d : Nat) (hd : d ≤ H) :
    (MerkleTree.new t2o db H e).1.zero_hashes[d]?
      = some (dupIter t2o e (H - d)) := by
  rw [new_zero_hashes_eq]
  have hlen : ((List.range (H + 1)).map (dupIter t2o e)).length = H + 1 := by
    simp
  have hdlt : d < ((List.range (H + 1)).map (dupIter t2o e)).length := by
    omega
  rw [List.getElem?_reverse hdlt, hlen]
  have hidx : H + 1 - 1 - d = H - d := by omega
  rw [hidx]
  rw [List.getElem?_map]
  rw [List.getElem?_range (by omega)]
  rfl

/-!  The central characterization of the update loop. -/

theorem nodeAtD_of_some [Inhabited D] (t : MerkleTree D) (p : List Bool)
    (x : D) (h : t.node_hashes p = some x) : nodeAtD t p = x := by
  unfold nodeAtD
  rw [h]

theorem nodeAtD_congr [Inhabited D] (t t' : MerkleTree D) (p : List Bool)
    (hn : t'.node_hashes p = t.node_hashes p)
    (hzz : t'.zero_hashes = t.zero_hashes) : nodeAtD t' p = nodeAtD t p := by
  unfold nodeAtD
  rw [hn, hzz]

theorem updateLoop_spec [DecidableEq D] [Inhabited D] (t2o : D → D → D)
    (rem : List Bool) :
    ∀ (t : MerkleTree D) (db : MockDB D) (h : D),
      t.zero_hashes.length = t.height + 1 →
      rem.length ≤ t.height →
      t.node_hashes rem.reverse = some h →
      ∃ t' db', updateLoop t2o t db h rem = .ok (t', db') ∧
        t'.height = t.height ∧
        t'.zero_hashes = t.zero_hashes ∧
        (∀ q, q ∉ revTails rem → t'.node_hashes q = t.node_hashes q) ∧
        (∀ q, q ∈ revTails rem → ∃ hq, t'.node_hashes q = some hq ∧
          hq = t2o (nodeAtD t' (q ++ [false])) (nodeAtD t' (q ++ [true])) ∧
          (db'.get hq).isSome = true) ∧
        (∀ k, (db.get k).isSome = true → (db'.get k).isSome = true) ∧
        (∀ k nd, db'.get k = some nd → db.get k = some nd ∨
          ∃ l r, k = t2o l r ∧ nd = ⟨some l, some r⟩) ∧
        (∃ r sibs, t'.node_hashes [] = some r ∧ proveLoop t' rem = .ok sibs ∧
          sibs.length = rem.length ∧ verFold t2o h (rem.zip sibs) = r) := by
  induction rem with
  | nil =>
    intro t db h hz hlen hmap
    refine ⟨t, db, rfl, rfl, rfl, fun q _ => rfl, ?_, fun k hk => hk,
      fun k nd hk => Or.inl hk, ?_⟩
    · intro q hq
      simp [revTails] at hq
    · exact ⟨h, [], by simpa using hmap, rfl, rfl, rfl⟩
  | cons b rest ih =>
    intro t db h hz hlen hmap
    have hlen' : rest.length + 1 ≤ t.height := by simpa using hlen
    have hlenr : rest.length ≤ t.height := by omega
    have hne : (b :: rest).reverse ≠ [] := by simp
    have hcurlen : ((b :: rest).reverse).length ≤ t.height := by
      simpa using hlen'
    have hflip : flipLast ((b :: rest).reverse) = rest.reverse ++ [!b] := by
      rw [List.reverse_cons, flipLast_concat]
    have hsib := get_sibling_hash_ok t ((b :: rest).reverse) hz hne hcurlen
    set s : D := nodeAtD t (flipLast ((b :: rest).reverse)) with hs_def
    set new_h : D := if b then t2o s h else t2o h s with hnh
    set t1 : MerkleTree D :=
      { t with node_hashes := fun q =>
          if q = rest.reverse then some new_h else t.node_hashes q } with ht1
    set nd : Node D :=
      if b then (⟨some s, some h⟩ : Node D) else ⟨some h, some s⟩ with hnd
    set db1 : MockDB D := db.insert new_h nd with hdb1
    have hstep : updateLoop t2o t db h (b :: rest)
        = updateLoop t2o t1 db1 new_h rest := by
      simp only [updateLoop]
      rw [hsib]
    have hz1 : t1.zero_hashes.length = t1.height + 1 := hz
    have hmap1 : t1.node_hashes rest.reverse = some new_h := by
      show (if rest.reverse = rest.reverse then some new_h else _) = _
      rw [if_pos rfl]
    obtain ⟨t', db', hok, hih_h, hih_z, hframe, hwrit, hmono, hform, r, sibs',
      hroot, hprove, hslen, hfold⟩ := ih t1 db1 new_h hz1 hlenr hmap1
    have ht1_h : t1.height = t.height := rfl
    have ht1_z : t1.zero_hashes = t.zero_hashes := rfl
    have hlen_ne : ∀ q : List Bool, q.length ≠ rest.length → q ≠ rest.reverse := by
      intro q hq heq
      apply hq
      rw [heq, List.length_reverse]
    have hcur_frame : t'.node_hashes ((b :: rest).reverse)
        = t.node_hashes ((b :: rest).reverse) := by
      rw [hframe _ (not_mem_revTails_of_length (by simp))]
      show (if (b :: rest).reverse = rest.reverse then _ else _) = _
      rw [if_neg (hlen_ne _ (by simp))]
    have hflip_frame : t'.node_hashes (rest.reverse ++ [!b])
        = t.node_hashes (rest.reverse ++ [!b]) := by
      rw [hframe _ (not_mem_revTails_of_length (by simp))]
      show (if rest.reverse ++ [!b] = rest.reverse then _ else _) = _
      rw [if_neg (hlen_ne _ (by simp))]
    have hz_tt : t'.zero_hashes = t.zero_hashes := by rw [hih_z]
    have hcur_val : nodeAtD t' (rest.reverse ++ [b]) = h := by
      apply nodeAtD_of_some
      rw [← List.reverse_cons]
      rw [hcur_frame]
      exact hmap
    have hflip_val : nodeAtD t' (rest.reverse ++ [!b]) = s := by
      rw [nodeAtD_congr t t' _ hflip_frame hz_tt]
      rw [hs_def, hflip]
    have hchild : new_h = t2o (nodeAtD t' (rest.reverse ++ [false]))
        (nodeAtD t' (rest.reverse ++ [true])) := by
      by_cases hb : b
      · subst hb
        rw [hnh, if_pos rfl]
        have hf : nodeAtD t' (rest.reverse ++ [false]) = s := by
          simpa using hflip_val
        have ht : nodeAtD t' (rest.reverse ++ [true]) = h := by
          simpa using hcur_val
        rw [hf, ht]
      · simp only [Bool.not_eq_true] at hb
        subst hb
        rw [hnh, if_neg (by simp)]
        have hf : nodeAtD t' (rest.reverse ++ [false]) = h := by
          simpa using hcur_val
        have ht : nodeAtD t' (rest.reverse ++ [true]) = s := by
          simpa using hflip_val
        rw [hf, ht]
    refine ⟨t', db', by rw [hstep]; exact hok, by rw [hih_h, ht1_h],
      by rw [hih_z, ht1_z], ?_, ?_, ?_, ?_, ?_⟩
    · -- frame
      intro q hq
      simp only [revTails, List.mem_cons] at hq
      push_neg at hq
      rw [hframe q hq.2]
      show (if q = rest.reverse then _ else _) = _
      rw [if_neg hq.1]
    · -- written positions
      intro q hq
      simp only [revTails, List.mem_cons] at hq
      rcases hq with rfl | hq
      · refine ⟨new_h, ?_, hchild, ?_⟩
        · rw [hframe _ (not_mem_revTails_of_length (by simp))]
          exact hmap1
        · apply hmono
          rw [hdb1, MockDB.get_insert, if_pos rfl]
          rfl
      · exact hwrit q hq
    · -- db monotone
      intro k hk
      apply hmono
      rw [hdb1, MockDB.get_insert]
      split
      · rfl
      · exact hk
    · -- db insert form
      intro k nd' hk
      rcases hform k nd' hk with hdb1k | hf
      · rw [hdb1, MockDB.get_insert] at hdb1k
        by_cases hkn : k = new_h
        · rw [if_pos hkn] at hdb1k
          right
          have hnd' : nd' = nd := (Option.some_injective _ hdb1k).symm
          by_cases hb : b
          · subst hb
            exact ⟨s, h, by rw [hkn, hnh, if_pos rfl],
              by rw [hnd', hnd, if_pos rfl]⟩
          · simp only [Bool.not_eq_true] at hb
            subst hb
            exact ⟨h, s, by rw [hkn, hnh, if_neg (by simp)],
              by rw [hnd', hnd, if_neg (by simp)]⟩
        · rw [if_neg hkn] at hdb1k
          exact Or.inl hdb1k
      · exact Or.inr hf
    · -- root value and proof siblings
      have hz' : t'.zero_hashes.length = t'.height + 1 := by
        rw [hz_tt, hih_h, ht1_h]
        exact hz
      have hsib' := get_sibling_hash_ok t' ((b :: rest).reverse) hz' hne
        (by rw [hih_h, ht1_h]; exact hcurlen)
      rw [hflip, hflip_val] at hsib'
      have hploop : proveLoop t' (b :: rest) = .ok (s :: sibs') := by
        simp only [proveLoop]
        rw [hsib', hprove]
      refine ⟨r, s :: sibs', hroot, hploop, by simpa using hslen, ?_⟩
      rw [List.zip_cons_cons]
      show verFold t2o h ((b, s) :: rest.zip sibs') = r
      unfold verFold
      rw [List.foldl_cons]
      exact hfold

theorem update_leaf_spec [DecidableEq D] [Inhabited D] (t2o : D → D → D)
    (t : MerkleTree D) (db : MockDB D) (bits : List Bool) (lh : D)
    (hz : t.zero_hashes.length = t.height + 1)
    (hlen : bits.length = t.height) :
    ∃ t' db', MerkleTree.update_leaf t2o t db bits lh = .ok (t', db') ∧
      t'.height = t.height ∧
      t'.zero_hashes = t.zero_hashes ∧
      t'.node_hashes bits.reverse = some lh ∧
      (∀ q, q ∉ revTails bits → q ≠ bits.reverse →
        t'.node_hashes q = t.node_hashes q) ∧
      (∀ q, q ∈ revTails bits → ∃ hq, t'.node_hashes q = some hq ∧
        hq = t2o (nodeAtD t' (q ++ [false])) (nodeAtD t' (q ++ [true])) ∧
        (db'.get hq).isSome = true) ∧
      (∀ k, (db.get k).isSome = true → (db'.get k).isSome = true) ∧
      (∀ k nd, db'.get k = some nd →
        db.get k = some nd ∨ (k = lh ∧ nd = ⟨none, none⟩) ∨
        ∃ l r, k = t2o l r ∧ nd = ⟨some l, some r⟩) ∧
      (∃ r sibs, t'.node_hashes [] = some r ∧ proveLoop t' bits = .ok sibs ∧
        sibs.length = bits.length ∧ verFold t2o lh (bits.zip sibs) = r) := by
  set t1 : MerkleTree D :=
    { t with node_hashes := fun q =>
        if q = bits.reverse then some lh else t.node_hashes q } with ht1
  set db1 : MockDB D := db.insert lh ⟨none, none⟩ with hdb1
  have hstep : MerkleTree.update_leaf t2o t db bits lh
      = updateLoop t2o t1 db1 lh bits := by
    simp only [MerkleTree.update_leaf]
    rw [if_pos hlen]
  have hz1 : t1.zero_hashes.length = t1.height + 1 := hz
  have hlen1 : bits.length ≤ t1.height := by
    show bits.length ≤ t.height
    omega
  have hmap1 : t1.node_hashes bits.reverse = some lh := by
    show (if bits.reverse = bits.reverse then some lh else _) = _
    rw [if_pos rfl]
  obtain ⟨t', db', hok, hih_h, hih_z, hframe, hwrit, hmono, hform, r, sibs,
    hroot, hprove, hslen, hfold⟩ := updateLoop_spec t2o bits t1 db1 lh hz1
      hlen1 hmap1
  refine ⟨t', db', by rw [hstep]; exact hok, hih_h, hih_z, ?_, ?_, hwrit, ?_,
    ?_, ⟨r, sibs, hroot, hprove, hslen, hfold⟩⟩
  · rw [hframe _ (not_mem_revTails_of_length (by simp))]
    exact hmap1
  · intro q hq hq2
    rw [hframe q hq]
    show (if q = bits.reverse then some lh else _) = _
    rw [if_neg hq2]
  · intro k hk
    apply hmono
    rw [hdb1, MockDB.get_insert]
    split
    · rfl
    · exact hk
  · intro k nd hk
    rcases hform k nd hk with hdb1k | hf
    · rw [hdb1, MockDB.get_insert] at hdb1k
      by_cases hkl : k = lh
      · rw [if_pos hkl] at hdb1k
        exact Or.inr (Or.inl ⟨hkl, (Option.some_injective _ hdb1k).symm⟩)
      · rw [if_neg hkl] at hdb1k
        exact Or.inl hdb1k
    · exact Or.inr (Or.inr hf)

theorem get_root_ok [Inhabited D] (t : MerkleTree D)
    (hz : t.zero_hashes.length = t.height + 1) :
    t.get_root = .ok (nodeAtD t []) :=
  get_node_hash_ok t [] hz (by simp)

theorem prove_ok (t : MerkleTree D) (bits : List Bool)
    (hlen : bits.length = t.height) (sibs : List D)
    (hploop : proveLoop t bits = .ok sibs) : t.prove bits = .ok ⟨sibs⟩ := by
  unfold MerkleTree.prove
  rw [if_pos hlen, hploop]

theorem proof_get_root_eq_verFold (t2o : D → D → D) (hashLeaf : V → D)
    (p : MerkleProof D) (leaf : V) (bits : List Bool) :
    p.get_root t2o hashLeaf leaf bits
      = verFold t2o (hashLeaf leaf) (bits.zip p.siblings) := rfl

/-- C1: for every tree of height `H` (with a well-formed zero-hash table),
every `index_bits` vector of length exactly `H` and every leaf value `v`,
after `update_leaf(index_bits, hash(v))` the proof returned by
`prove(index_bits)` verifies against the tree's current `get_root()`:
`verify(v, index_bits, get_root())` succeeds. -/
theorem c1_update_then_prove_verifies [DecidableEq D] [Inhabited D]
    (t2o : D → D → D) (hashLeaf : V → D) (t : MerkleTree D) (db : MockDB D)
    (v : V) (bits : List Bool)
    (hz : t.zero_hashes.length = t.height + 1)
    (hlen : bits.length = t.height) :
    ∃ t' db' pf r,
      MerkleTree.update_leaf t2o t db bits (hashLeaf v) = .ok (t', db') ∧
      t'.prove bits = .ok pf ∧
      t'.get_root = .ok r ∧
      pf.verify t2o hashLeaf v bits r = .ok () := by
  obtain ⟨t', db', hok, hh, hzz, hleaf, hframe, hwrit, hmono, hform, r, sibs,
    hrootmap, hploop, hslen, hfold⟩ :=
      update_leaf_spec t2o t db bits (hashLeaf v) hz hlen
  refine ⟨t', db', ⟨sibs⟩, r, hok,
    prove_ok t' bits (by rw [hh]; exact hlen) sibs hploop, ?_, ?_⟩
  · rw [get_root_ok t' (by rw [hzz, hh]; exact hz),
      nodeAtD_of_some t' [] r hrootmap]
  · unfold MerkleProof.verify
    rw [if_pos]
    rw [proof_get_root_eq_verFold]
    exact hfold

/-- Witness for C1 at a concrete instance: the free digest algebra, a fresh
tree of height 2, index bits `[true, false]` (leaf index 1), leaf value 5. -/
theorem c1_witness :
    ∃ t' db' pf r,
      MerkleTree.update_leaf FreeDigest.nodeD
          (MerkleTree.new FreeDigest.nodeD (MockDB.empty FreeDigest) 2
            emptyLeafFD).1
          (MerkleTree.new FreeDigest.nodeD (MockDB.empty FreeDigest) 2
            emptyLeafFD).2
          [true, false] (hashNat 5) = .ok (t', db') ∧
      t'.prove [true, false] = .ok pf ∧
      t'.get_root = .ok r ∧
      pf.verify FreeDigest.nodeD hashNat 5 [true, false] r = .ok () :=
  c1_update_then_prove_verifies FreeDigest.nodeD hashNat _ _ 5 [true, false]
    (by decide) (by decide)

/-- C5: construction produces a zero-hash table of length `H + 1` with
`entry[H] = e` and `entry[d] = two_to_one(entry[d+1], entry[d+1])` for
`0 <= d < H`, and `get_root()` on the freshly constructed tree returns
`zero_hashes[0]`. -/
theorem c5_construction_zero_hashes [DecidableEq D] (t2o : D → D → D)
    (db : MockDB D) (H : Nat) (e : D) :
    (MerkleTree.new t2o db H e).1.zero_hashes.length = H + 1 ∧
    (MerkleTree.new t2o db H e).1.zero_hashes[H]? = some e ∧
    (∀ d, d < H →
      ∃ a, (MerkleTree.new t2o db H e).1.zero_hashes[d + 1]? = some a ∧
        (MerkleTree.new t2o db H e).1.zero_hashes[d]? = some (t2o a a)) ∧
    ∃ z0, (MerkleTree.new t2o db H e).1.zero_hashes[0]? = some z0 ∧
      (MerkleTree.new t2o db H e).1.get_root = .ok z0 := by
  refine ⟨new_zero_len t2o db H e, ?_, ?_, ?_⟩
  · rw [new_zero_get t2o db H e H (Nat.le_refl H)]
    simp [dupIter]
  · intro d hd
    refine ⟨dupIter t2o e (H - (d + 1)), ?_, ?_⟩
    · exact new_zero_get t2o db H e (d + 1) (by omega)
    · rw [new_zero_get t2o db H e d (by omega)]
      have hidx : H - d = (H - (d + 1)) + 1 := by omega
      rw [hidx]
      rfl
  · refine ⟨dupIter t2o e H, ?_, ?_⟩
    · have h0 := new_zero_get t2o db H e 0 (Nat.zero_le H)
      simpa using h0
    · show (MerkleTree.new t2o db H e).1.get_node_hash [] = _
      unfold MerkleTree.get_node_hash
      rw [if_pos (by rw [new_fst_height]; exact Nat.zero_le H)]
      rw [new_fst_node_hashes]
      have h0 := new_zero_get t2o db H e 0 (Nat.zero_le H)
      simp only [List.length_nil]
      rw [h0]
      simp

/-- C6: wrong-length inputs are reported as explicit errors
(`InvalidIndexLength` for `update_leaf`, `PathTooLong` for `get_node_hash`),
and on a well-formed tree correct-length inputs never produce these errors
(both operations succeed). -/
theorem c6_contract_violations [DecidableEq D] [Inhabited D]
    (t2o : D → D → D) (t : MerkleTree D) (db : MockDB D) (bits : List Bool)
    (lh : D) (p : List Bool) :
    (bits.length ≠ t.height →
      MerkleTree.update_leaf t2o t db bits lh = .error .InvalidIndexLength) ∧
    (t.height < p.length → t.get_node_hash p = .error .PathTooLong) ∧
    (t.zero_hashes.length = t.height + 1 → bits.length = t.height →
      ∃ res, MerkleTree.update_leaf t2o t db bits lh = .ok res) ∧
    (t.zero_hashes.length = t.height + 1 → p.length ≤ t.height →
      ∃ x, t.get_node_hash p = .ok x) := by
  refine ⟨?_, ?_, ?_, ?_⟩
  · intro h
    unfold MerkleTree.update_leaf
    rw [if_neg h]
  · intro h
    unfold MerkleTree.get_node_hash
    rw [if_neg (by omega)]
  · intro hz hlen
    obtain ⟨t', db', hok, _⟩ := update_leaf_spec t2o t db bits lh hz hlen
    exact ⟨(t', db'), hok⟩
  · intro hz hp
    exact ⟨nodeAtD t p, get_node_hash_ok t p hz hp⟩

/-- Witness for C6 at height 1 over the free digest algebra: a length-2 index
errors with `InvalidIndexLength`, a length-2 path errors with `PathTooLong`,
and length-1 inputs succeed. -/
theorem c6_witness :
    (MerkleTree.update_leaf FreeDigest.nodeD
      (MerkleTree.new FreeDigest.nodeD (MockDB.empty FreeDigest) 1
        emptyLeafFD).1
      (MerkleTree.new FreeDigest.nodeD (MockDB.empty FreeDigest) 1
        emptyLeafFD).2 [true, false] (hashNat 3)
      = .error .InvalidIndexLength) ∧
    ((MerkleTree.new FreeDigest.nodeD (MockDB.empty FreeDigest) 1
        emptyLeafFD).1.get_node_hash [true, true] = .error .PathTooLong) ∧
    (∃ res, MerkleTree.update_leaf FreeDigest.nodeD
      (MerkleTree.new FreeDigest.nodeD (MockDB.empty FreeDigest) 1
        emptyLeafFD).1
      (MerkleTree.new FreeDigest.nodeD (MockDB.empty FreeDigest) 1
        emptyLeafFD).2 [false] (hashNat 3) = .ok res) ∧
    (∃ x, (MerkleTree.new FreeDigest.nodeD (MockDB.empty FreeDigest) 1
        emptyLeafFD).1.get_node_hash [true] = .ok x) := by
  have ha := c6_contract_violations FreeDigest.nodeD
    (MerkleTree.new FreeDigest.nodeD (MockDB.empty FreeDigest) 1
      emptyLeafFD).1
    (MerkleTree.new FreeDigest.nodeD (MockDB.empty FreeDigest) 1
      emptyLeafFD).2 [true, false] (hashNat 3) [true, true]
  have hb := c6_contract_violations FreeDigest.nodeD
    (MerkleTree.new FreeDigest.nodeD (MockDB.empty FreeDigest) 1
      emptyLeafFD).1
    (MerkleTree.new FreeDigest.nodeD (MockDB.empty FreeDigest) 1
      emptyLeafFD).2 [false] (hashNat 3) [true]
  exact ⟨ha.1 (by decide), ha.2.1 (by decide),
    hb.2.2.1 (by decide) (by decide), hb.2.2.2 (by decide) (by decide)⟩

/-- C8: `verify` signals `VerificationFailed` exactly when the recomputed
root differs from the expected root, and succeeds exactly when they agree.
Both `verify` and `get_root` are pure functions of their arguments in the
embedding, so no proof or tree state can change. -/
theorem c8_verify_iff [DecidableEq D] (t2o : D → D → D) (hashLeaf : V → D)
    (p : MerkleProof D) (leaf : V) (bits : List Bool) (root : D) :
    (p.verify t2o hashLeaf leaf bits root = .error .VerificationFailed ↔
      p.get_root t2o hashLeaf leaf bits ≠ root) ∧
    (p.verify t2o hashLeaf leaf bits root = .ok () ↔
      p.get_root t2o hashLeaf leaf bits = root) := by
  unfold MerkleProof.verify
  constructor
  · constructor
    · intro h heq
      rw [if_pos heq] at h
      simp at h
    · intro h
      rw [if_neg h]
  · constructor
    · intro h
      by_contra hne
      rw [if_neg hne] at h
      simp at h
    · intro h
      rw [if_pos h]

theorem zip_take_take (A : List α) (B : List β) :
    A.zip B = (A.take B.length).zip (B.take A.length) := by
  induction A generalizing B with
  | nil => simp
  | cons a A ihA =>
    cases B with
    | nil => simp
    | cons b B =>
      simp only [List.zip_cons_cons, List.length_cons, List.take_succ_cons]
      rw [← ihA]

/-- C10: `MerkleProof::get_root` and `verify` perform no length validation:
`get_root` folds over only the first `min(len(index_bits), len(siblings))`
pairs (the zip truncates to the shorter input), `verify` with empty
`index_bits` succeeds exactly when the leaf hash equals the expected root,
and `verify` only ever yields success or `VerificationFailed`, never a
length-mismatch error. -/
theorem c10_no_length_validation [DecidableEq D] (t2o : D → D → D)
    (hashLeaf : V → D) (p : MerkleProof D) (leaf : V) (bits : List Bool)
    (root : D) :
    (p.get_root t2o hashLeaf leaf bits
      = MerkleProof.get_root t2o hashLeaf ⟨p.siblings.take bits.length⟩ leaf
          (bits.take p.siblings.length)) ∧
    (MerkleProof.verify t2o hashLeaf p leaf [] root = .ok () ↔
      hashLeaf leaf = root) ∧
    (p.verify t2o hashLeaf leaf bits root = .ok () ∨
      p.verify t2o hashLeaf leaf bits root = .error .VerificationFailed) := by
  refine ⟨?_, ?_, ?_⟩
  · rw [proof_get_root_eq_verFold, proof_get_root_eq_verFold]
    show verFold t2o _ (bits.zip p.siblings) = verFold t2o _
      ((bits.take p.siblings.length).zip (p.siblings.take bits.length))
    rw [← zip_take_take]
  · have hg : p.get_root t2o hashLeaf leaf [] = hashLeaf leaf := rfl
    unfold MerkleProof.verify
    rw [hg]
    constructor
    · intro h
      by_contra hne
      rw [if_neg hne] at h
      simp at h
    · intro h
      rw [if_pos h]
  · unfold MerkleProof.verify
    split
    · exact Or.inl rfl
    · exact Or.inr rfl

/-!  Equivalence of the pop-from-the-back walk with a structural head-first
walk on the reversed bits. -/

theorem pwgrAux_eq_pwgrLoop [DecidableEq D] (db : MockDB D) (bs : List Bool) :
    ∀ h : D, pwgrLoop db h bs.reverse = pwgrAux db h bs := by
  induction bs with
  | nil =>
    intro h
    rw [pwgrLoop]
    simp [pwgrAux]
  | cons b rest ihb =>
    intro h
    rw [List.reverse_cons, pwgrLoop]
    rw [dif_neg (by simp : ¬(rest.reverse ++ [b] = []))]
    show (match db.get h with
      | none => Except.error MerkleError.NodeNotFound
      | some node => _) = _
    simp only [pwgrAux]
    cases hdb : db.get h with
    | none => rfl
    | some node =>
      have hlast : ∀ hx : rest.reverse ++ [b] ≠ [],
          (rest.reverse ++ [b]).getLast hx = b := by
        intro hx
        exact List.getLast_concat _
      simp only [hlast, List.dropLast_concat]
      cases hr : (if b then node.right else node.left) with
      | none =>
        cases hl : (if b then node.left else node.right) <;> rfl
      | some child =>
        cases hl : (if b then node.left else node.right) with
        | none => rfl
        | some sibling =>
          simp only [ihb]

theorem pwgrLoop_eq_aux_reverse [DecidableEq D] (db : MockDB D) (h : D)
    (path : List Bool) : pwgrLoop db h path = pwgrAux db h path.reverse := by
  have hh := pwgrAux_eq_pwgrLoop db path.reverse h
  rwa [List.reverse_reverse] at hh

theorem prove_with_given_root_eq [DecidableEq D] (t : MerkleTree D)
    (db : MockDB D) (root : D) (bits : List Bool) :
    t.prove_with_given_root db root bits
      = if bits.length = t.height then
          match pwgrAux db root bits.reverse with
          | .error e => .error e
          | .ok siblings => .ok ⟨siblings.reverse⟩
        else .error .InvalidIndexLength := by
  unfold MerkleTree.prove_with_given_root
  rw [pwgrLoop_eq_aux_reverse]

/-- C7: when `prove_with_given_root` cannot find the digest it is expanding
in the node store, the operation fails with `NodeNotFound` (the
`.expect("cannot find node")`), an error distinct from the contract-violation
errors `InvalidIndexLength` and `PathTooLong`; no retry exists in the code
(the embedding is a pure function returning this error). -/
theorem c7_store_inconsistency [DecidableEq D] (t : MerkleTree D)
    (db : MockDB D) (root : D) (bits : List Bool) :
    (bits ≠ [] → db.get root = none →
      pwgrLoop db root bits = .error .NodeNotFound) ∧
    (bits.length = t.height → 0 < t.height → db.get root = none →
      t.prove_with_given_root db root bits = .error .NodeNotFound) ∧
    MerkleError.NodeNotFound ≠ MerkleError.InvalidIndexLength ∧
    MerkleError.NodeNotFound ≠ MerkleError.PathTooLong := by
  have hloop : bits ≠ [] → db.get root = none →
      pwgrLoop db root bits = .error .NodeNotFound := by
    intro hne hdb
    rw [pwgrLoop, dif_neg hne, hdb]
  refine ⟨hloop, ?_, by decide, by decide⟩
  intro hlen hh hdb
  unfold MerkleTree.prove_with_given_root
  rw [if_pos hlen]
  rw [hloop (by intro hnil; rw [hnil] at hlen; simp at hlen; omega) hdb]

/-- Witness for C7: height-1 tree, empty store, any root digest. -/
theorem c7_witness :
    (pwgrLoop (MockDB.empty FreeDigest) (hashNat 0) [false]
      = .error .NodeNotFound) ∧
    ((MerkleTree.new FreeDigest.nodeD (MockDB.empty FreeDigest) 1
        emptyLeafFD).1.prove_with_given_root (MockDB.empty FreeDigest)
        (hashNat 0) [false] = .error .NodeNotFound) ∧
    MerkleError.NodeNotFound ≠ MerkleError.InvalidIndexLength ∧
    MerkleError.NodeNotFound ≠ MerkleError.PathTooLong := by
  have h := c7_store_inconsistency
    (MerkleTree.new FreeDigest.nodeD (MockDB.empty FreeDigest) 1
      emptyLeafFD).1 (MockDB.empty FreeDigest) (hashNat 0) [false]
  exact ⟨h.1 (by decide) rfl, h.2.1 (by decide) (by decide) rfl, h.2.2.1,
    h.2.2.2⟩

/-- Modelled from the claim's (and spec §4.5's) description of the walk in
`prove_with_given_root`: "consume `index_bits` from index 0 upward — bit 0 is
consulted first to choose the child at the root level", with the collected
siblings reversed at the end.  Identical per-step body to the code's walk;
only the consumption order differs (head first instead of popping the last
element). -/
def prove_with_given_root_claim [DecidableEq D] (t : MerkleTree D)
    (db : MockDB D) (root : D) (index_bits : List Bool) :
    Except MerkleError (MerkleProof D) :=
  if index_bits.length = t.height then
    match pwgrAux db root index_bits with
    | .error e => .error e
    | .ok siblings => .ok ⟨siblings.reverse⟩
  else .error .InvalidIndexLength

/-- Height-2 tree and store used by the C3 counterexample. -/
def c3pair0 : MerkleTree FreeDigest × MockDB FreeDigest :=
  MerkleTree.new FreeDigest.nodeD (MockDB.empty FreeDigest) 2 emptyLeafFD

/-- State after updating leaf index 1 (bits `[true, false]`) with digest
`leafD [9]`. -/
def c3pair1 : MerkleTree FreeDigest × MockDB FreeDigest :=
  exOk (MerkleTree.update_leaf FreeDigest.nodeD c3pair0.1 c3pair0.2
    [true, false] (.leafD [9]))

/-- The root of `c3pair1`. -/
def c3root : FreeDigest :=
  .nodeD (.nodeD (.leafD []) (.leafD [9])) (.nodeD (.leafD []) (.leafD []))

/-- Counterexample to C3: at height 2, after updating leaf index 1, the code's
`prove_with_given_root` walk consults the *last* index bit (the most
significant bit) first — its result differs from the walk described by the
claim ("bit 0 consulted first at the root level", modelled by
`prove_with_given_root_claim`), and both walks succeed, so the difference is
not an error artifact. -/
theorem c3_counterexample :
    c3pair1.1.get_root = .ok c3root ∧
    c3pair1.1.prove_with_given_root c3pair1.2 c3root [true, false]
      = .ok ⟨[.leafD [], .nodeD (.leafD []) (.leafD [])]⟩ ∧
    prove_with_given_root_claim c3pair1.1 c3pair1.2 c3root [true, false]
      = .ok ⟨[.leafD [], .nodeD (.leafD []) (.leafD [9])]⟩ ∧
    (MerkleProof.mk [FreeDigest.leafD [],
        .nodeD (.leafD []) (.leafD [])]
      ≠ ⟨[.leafD [], .nodeD (.leafD []) (.leafD [9])]⟩) := by
  refine ⟨rfl, ?_, rfl, by decide⟩
  rw [prove_with_given_root_eq]
  rfl

/-- C3 (amended): the walk of `prove_with_given_root` consumes `index_bits`
from the *last* index downward — popping the back of the little-endian vector
yields the big-endian root-to-leaf order directly (the walk equals the
head-first walk over `index_bits.reverse`), and the collected siblings are
reversed at the end to produce leaf-to-root order. -/
theorem c3_amended_walk_order [DecidableEq D] (t : MerkleTree D)
    (db : MockDB D) (root : D) (bits : List Bool)
    (hlen : bits.length = t.height) :
    t.prove_with_given_root db root bits
      = match pwgrAux db root bits.reverse with
        | .error e => .error e
        | .ok siblings => .ok ⟨siblings.reverse⟩ := by
  rw [prove_with_given_root_eq, if_pos hlen]

/-- Witness for the amended C3 on the counterexample state. -/
theorem c3_amended_witness :
    c3pair1.1.prove_with_given_root c3pair1.2 c3root [true, false]
      = match pwgrAux c3pair1.2 c3root ([true, false].reverse) with
        | .error e => .error e
        | .ok siblings => .ok ⟨siblings.reverse⟩ :=
  c3_amended_walk_order c3pair1.1 c3pair1.2 c3root [true, false] (by decide)

/-!  Sibling lists of `prove`, and idempotence of `update_leaf`. -/

/-- The sibling values collected by `proveLoop` on a well-formed tree. -/
def sibList [Inhabited D] (t : MerkleTree D) : List Bool → List D
  | [] => []
  | b :: rest => nodeAtD t (flipLast ((b :: rest).reverse)) :: sibList t rest

theorem proveLoop_values [Inhabited D] (rem : List Bool) :
    ∀ t : MerkleTree D, t.zero_hashes.length = t.height + 1 →
      rem.length ≤ t.height → proveLoop t rem = .ok (sibList t rem) := by
  induction rem with
  | nil => intro t _ _; rfl
  | cons b rest ih =>
    intro t hz hlen
    have hlen' : rest.length + 1 ≤ t.height := by simpa using hlen
    have hs := get_sibling_hash_ok t ((b :: rest).reverse) hz (by simp)
      (by simpa using hlen')
    simp only [proveLoop]
    rw [hs, ih t hz (by omega)]
    rfl

theorem sibList_congr [Inhabited D] (rem : List Bool) (ta tb : MerkleTree D)
    (hzz : ta.zero_hashes = tb.zero_hashes)
    (hsib : ∀ r : List Bool, r <:+ rem → r ≠ [] →
      ta.node_hashes (flipLast r.reverse)
        = tb.node_hashes (flipLast r.reverse)) :
    sibList ta rem = sibList tb rem := by
  induction rem with
  | nil => rfl
  | cons b rest ih =>
    simp only [sibList]
    congr 1
    · exact nodeAtD_congr tb ta _
        (hsib (b :: rest) (List.suffix_refl _) (by simp)) hzz
    · exact ih (fun r hr hne => hsib r (hr.trans (List.suffix_cons b rest)) hne)

theorem flip_suffix_ne_full {r rem : List Bool} (hr : r ≠ [])
    (hsuf : r <:+ rem) : flipLast r.reverse ≠ rem.reverse := by
  intro heq
  have hlenf : (flipLast r.reverse).length = r.length := by
    rw [flipLast_length _ (by simpa using hr), List.length_reverse]
  have hlen2 : r.length = rem.length := by
    rw [← hlenf, heq, List.length_reverse]
  have hreq : r = rem := List.IsSuffix.eq_of_length hsuf hlen2
  subst hreq
  exact flipLast_ne r.reverse (by simpa using hr) heq

/-- C9: `update_leaf` is idempotent in its effect on the root: on any
well-formed tree, updating the same index with the same digest twice yields
the same `get_root()` as updating once. -/
theorem c9_update_leaf_idempotent [DecidableEq D] [Inhabited D]
    (t2o : D → D → D) (t : MerkleTree D) (db : MockDB D) (bits : List Bool)
    (d : D) (hz : t.zero_hashes.length = t.height + 1)
    (hlen : bits.length = t.height) :
    ∃ t1 db1 t2 db2,
      MerkleTree.update_leaf t2o t db bits d = .ok (t1, db1) ∧
      MerkleTree.update_leaf t2o t1 db1 bits d = .ok (t2, db2) ∧
      t2.get_root = t1.get_root := by
  obtain ⟨t1, db1, hok1, hh1, hz1, hleaf1, hframe1, _, _, _, r1, sibs1,
    hroot1, hploop1, _, hfold1⟩ := update_leaf_spec t2o t db bits d hz hlen
  have hz1' : t1.zero_hashes.length = t1.height + 1 := by
    rw [hz1, hh1]
    exact hz
  have hlen1 : bits.length = t1.height := by
    rw [hh1]
    exact hlen
  obtain ⟨t2, db2, hok2, hh2, hz2, hleaf2, hframe2, _, _, _, r2, sibs2,
    hroot2, hploop2, _, hfold2⟩ := update_leaf_spec t2o t1 db1 bits d hz1'
      hlen1
  refine ⟨t1, db1, t2, db2, hok1, hok2, ?_⟩
  have hv1 := proveLoop_values bits t1 hz1' (by omega)
  have hv2 := proveLoop_values bits t2 (by rw [hz2, hh2]; exact hz1')
    (by rw [hh2]; omega)
  have hs1 : sibs1 = sibList t1 bits := Except.ok.inj (hploop1.symm.trans hv1)
  have hs2 : sibs2 = sibList t2 bits := Except.ok.inj (hploop2.symm.trans hv2)
  have hflipeq : ∀ r : List Bool, r <:+ bits → r ≠ [] →
      t2.node_hashes (flipLast r.reverse)
        = t1.node_hashes (flipLast r.reverse) := by
    intro r hsuf hne
    exact hframe2 _ (flipLast_not_mem_revTails hne hsuf)
      (flip_suffix_ne_full hne hsuf)
  have hsibeq : sibList t2 bits = sibList t1 bits :=
    sibList_congr bits t2 t1 (by rw [hz2]) hflipeq
  have hss : sibs2 = sibs1 := by rw [hs2, hsibeq, ← hs1]
  have hr12 : r2 = r1 := by
    rw [← hfold1, ← hfold2, hss]
  rw [get_root_ok t2 (by rw [hz2, hh2]; exact hz1'), get_root_ok t1 hz1',
    nodeAtD_of_some t2 [] r2 hroot2, nodeAtD_of_some t1 [] r1 hroot1, hr12]

/-- Witness for C9: the free digest algebra, fresh height-1 tree, index bits
`[false]`, digest `hashNat 7`. -/
theorem c9_witness :
    ∃ t1 db1 t2 db2,
      MerkleTree.update_leaf FreeDigest.nodeD
        (MerkleTree.new FreeDigest.nodeD (MockDB.empty FreeDigest) 1
          emptyLeafFD).1
        (MerkleTree.new FreeDigest.nodeD (MockDB.empty FreeDigest) 1
          emptyLeafFD).2 [false] (hashNat 7) = .ok (t1, db1) ∧
      MerkleTree.update_leaf FreeDigest.nodeD t1 db1 [false] (hashNat 7)
        = .ok (t2, db2) ∧
      t2.get_root = t1.get_root :=
  c9_update_leaf_idempotent FreeDigest.nodeD _ _ [false] (hashNat 7)
    (by decide) (by decide)

/-!  Node-store growth under updates (claim C4). -/

theorem updateLoop_db_mono [DecidableEq D] (t2o : D → D → D)
    (rem : List Bool) :
    ∀ (t : MerkleTree D) (db : MockDB D) (h : D) (t' : MerkleTree D)
      (db' : MockDB D),
      updateLoop t2o t db h rem = .ok (t', db') →
      ∀ k, (db.get k).isSome = true → (db'.get k).isSome = true := by
  induction rem with
  | nil =>
    intro t db h t' db' hok k hk
    have h2 := Except.ok.inj hok
    injection h2 with ha hb
    subst hb
    exact hk
  | cons b rest ih =>
    intro t db h t' db' hok k hk
    simp only [updateLoop] at hok
    cases hsib : t.get_sibling_hash ((b :: rest).reverse) with
    | error e =>
      rw [hsib] at hok
      exact absurd hok (by simp)
    | ok s =>
      rw [hsib] at hok
      refine ih _ _ _ _ _ hok k ?_
      rw [MockDB.get_insert]
      by_cases hke : k = (if b then t2o s h else t2o h s)
      · rw [if_pos hke]
        rfl
      · rw [if_neg hke]
        exact hk

theorem update_leaf_db_mono [DecidableEq D] (t2o : D → D → D)
    (t : MerkleTree D) (db : MockDB D) (bits : List Bool) (lh : D)
    (t' : MerkleTree D) (db' : MockDB D)
    (hok : MerkleTree.update_leaf t2o t db bits lh = .ok (t', db'))
    (k : D) (hk : (db.get k).isSome = true) :
    (db'.get k).isSome = true := by
  unfold MerkleTree.update_leaf at hok
  by_cases hlen : bits.length = t.height
  · rw [if_pos hlen] at hok
    refine updateLoop_db_mono t2o bits _ _ _ _ _ hok k ?_
    rw [MockDB.get_insert]
    split
    · rfl
    · exact hk
  · rw [if_neg hlen] at hok
    exact absurd hok (by simp)

theorem applyUpdates_db_mono [DecidableEq D] (t2o : D → D → D)
    (ops : List (List Bool × D)) :
    ∀ (t : MerkleTree D) (db : MockDB D) (t' : MerkleTree D)
      (db' : MockDB D),
      applyUpdates t2o (t, db) ops = .ok (t', db') →
      ∀ k, (db.get k).isSome = true → (db'.get k).isSome = true := by
  induction ops with
  | nil =>
    intro t db t' db' hok k hk
    have h2 := Except.ok.inj hok
    injection h2 with ha hb
    subst hb
    exact hk
  | cons op rest ih =>
    intro t db t' db' hok k hk
    obtain ⟨bits, lh⟩ := op
    simp only [applyUpdates] at hok
    cases hupd : MerkleTree.update_leaf t2o t db bits lh with
    | error e =>
      rw [hupd] at hok
      exact absurd hok (by simp)
    | ok p =>
      rw [hupd] at hok
      obtain ⟨ta, dba⟩ := p
      exact ih ta dba t' db' hok k
        (update_leaf_db_mono t2o t db bits lh ta dba hupd k hk)

/-- Height-1 tree and store used by the C4 counterexample. -/
def c4pair0 : MerkleTree FreeDigest × MockDB FreeDigest :=
  MerkleTree.new FreeDigest.nodeD (MockDB.empty FreeDigest) 1 emptyLeafFD

/-- The internal digest whose store entry the C4 counterexample clobbers:
the root of the all-empty height-1 tree. -/
def c4key : FreeDigest := .nodeD (.leafD []) (.leafD [])

/-- State after `update_leaf([false], c4key)` — the caller-supplied leaf
digest happens to equal the existing internal digest `c4key`. -/
def c4pair1 : MerkleTree FreeDigest × MockDB FreeDigest :=
  exOk (MerkleTree.update_leaf FreeDigest.nodeD c4pair0.1 c4pair0.2 [false]
    c4key)

/-- Counterexample to C4: after construction, the store maps `c4key` (the
all-empty root) to children `(leafD [], leafD [])`; the later
`update_leaf([false], c4key)` re-inserts the same digest as a childless leaf
record, changing the children recorded under that digest to `(none, none)`.
So an inserted entry is not immutable under later operations. -/
theorem c4_counterexample :
    c4pair0.2.get c4key
      = some ⟨some (.leafD []), some (.leafD [])⟩ ∧
    MerkleTree.update_leaf FreeDigest.nodeD c4pair0.1 c4pair0.2 [false] c4key
      = .ok c4pair1 ∧
    c4pair1.2.get c4key = some ⟨none, none⟩ ∧
    (Node.mk (some (FreeDigest.leafD [])) (some (FreeDigest.leafD []))
      ≠ Node.mk none none) :=
  ⟨rfl, rfl, rfl, by decide⟩

/-- C4 (amended): the Node Store never *removes* an entry — once a digest is
present it stays present through construction and through any sequence of
`update_leaf` calls; however, the children recorded under a digest can be
changed by a later insert that re-uses the same digest (for example, a
caller-supplied leaf hash equal to an existing internal digest is re-recorded
with no children, as the counterexample shows). -/
theorem c4_amended_never_removed [DecidableEq D] (t2o : D → D → D)
    (ops : List (List Bool × D)) (t : MerkleTree D) (db : MockDB D)
    (H : Nat) (e : D) (db0 : MockDB D) (k : D) :
    ((db0.get k).isSome = true →
      (((MerkleTree.new t2o db0 H e).2).get k).isSome = true) ∧
    (∀ t' db', applyUpdates t2o (t, db) ops = .ok (t', db') →
      (db.get k).isSome = true → (db'.get k).isSome = true) := by
  constructor
  · intro hk
    exact newLoop_snd_mono t2o db0 e H k hk
  · intro t' db' hok hk
    exact applyUpdates_db_mono t2o ops t db t' db' hok k hk

/-- Witness for the amended C4: the counterexample state itself — the clobbered
key stays present through construction and a further update. -/
theorem c4_amended_witness :
    (((MerkleTree.new FreeDigest.nodeD c4pair0.2 1 emptyLeafFD).2).get
      c4key).isSome = true ∧
    ((exOk (applyUpdates FreeDigest.nodeD (c4pair1.1, c4pair1.2)
      [([false], hashNat 1)])).2.get c4key).isSome = true := by
  have h1 := (c4_amended_never_removed FreeDigest.nodeD
    [([false], hashNat 1)] c4pair1.1 c4pair1.2 1 emptyLeafFD c4pair0.2
    c4key).1 (by decide)
  have h2 := (c4_amended_never_removed FreeDigest.nodeD
    [([false], hashNat 1)] c4pair1.1 c4pair1.2 1 emptyLeafFD c4pair0.2
    c4key).2
    (exOk (applyUpdates FreeDigest.nodeD (c4pair1.1, c4pair1.2)
      [([false], hashNat 1)])).1
    (exOk (applyUpdates FreeDigest.nodeD (c4pair1.1, c4pair1.2)
      [([false], hashNat 1)])).2 rfl (by decide)
  exact ⟨h1, h2⟩

/-!  Invariants of reachable states over the free digest algebra (used for
the historical-root scenario of claim C2). -/

theorem isLeafD_exists {d : FreeDigest} (h : d.isLeafD = true) :
    ∃ xs, d = .leafD xs := by
  cases d with
  | leafD xs => exact ⟨xs, rfl⟩
  | nodeD l r => simp [FreeDigest.isLeafD] at h

theorem new_nodeAtD [DecidableEq D] [Inhabited D] (t2o : D → D → D)
    (db : MockDB D) (H : Nat) (e : D) (p : List Bool) (hp : p.length ≤ H) :
    nodeAtD (MerkleTree.new t2o db H e).1 p = dupIter t2o e (H - p.length) := by
  unfold nodeAtD
  rw [new_fst_node_hashes, new_zero_get t2o db H e p.length hp]
  rfl

theorem new_FullInv (H : Nat) (e : FreeDigest) :
    FullInv H (MerkleTree.new FreeDigest.nodeD (MockDB.empty FreeDigest) H
      e).1 (MerkleTree.new FreeDigest.nodeD (MockDB.empty FreeDigest) H
      e).2 := by
  refine ⟨rfl, new_zero_len _ _ H e, ?_, ?_, ?_⟩
  · intro p hp
    have hpH : p.length < H := hp
    rw [new_nodeAtD _ _ H e p (by omega),
      new_nodeAtD _ _ H e (p ++ [false]) (by simp; omega),
      new_nodeAtD _ _ H e (p ++ [true]) (by simp; omega)]
    have hlf : (p ++ [false]).length = p.length + 1 := by simp
    have hlt : (p ++ [true]).length = p.length + 1 := by simp
    rw [hlf, hlt]
    have hstep : H - p.length = (H - (p.length + 1)) + 1 := by omega
    rw [hstep]
    rfl
  · intro l r n hget
    rcases newLoop_snd_form FreeDigest.nodeD (MockDB.empty FreeDigest) e H _
      _ hget with hdb | ⟨l', hk, hnd⟩
    · exact absurd hdb (by simp [MockDB.empty, MockDB.get])
    · injection hk with h1 h2
      subst h1
      subst h2
      exact hnd
  · intro p hp
    have hpH : p.length < H := hp
    rw [new_nodeAtD _ _ H e p (by omega)]
    exact newLoop_snd_mem FreeDigest.nodeD (MockDB.empty FreeDigest) e H
      (H - p.length) (by omega) (by omega)

theorem child_frame {bits q : List Bool} {c : Bool} (hq : q ∉ revTails bits)
    (hlen : q.length < bits.length) :
    q ++ [c] ∉ revTails bits ∧ q ++ [c] ≠ bits.reverse := by
  constructor
  · intro hmem
    exact hq (concat_mem_revTails hmem)
  · intro heq
    apply hq
    refine (mem_revTails_iff bits q).mpr ⟨hlen, ?_⟩
    have hx : (q ++ [c]).take q.length = bits.reverse.take q.length := by
      rw [heq]
    rw [List.take_append_of_le_length (Nat.le_refl _), List.take_length] at hx
    exact hx

theorem update_preserves_FullInv (H : Nat) (t : MerkleTree FreeDigest)
    (db : MockDB FreeDigest) (bits : List Bool) (xs : List Nat)
    (hinv : FullInv H t db) (hlen : bits.length = H) :
    ∃ t' db',
      MerkleTree.update_leaf FreeDigest.nodeD t db bits (.leafD xs)
        = .ok (t', db') ∧
      FullInv H t' db' ∧
      (∀ k, (db.get k).isSome = true → (db'.get k).isSome = true) ∧
      t'.node_hashes bits.reverse = some (.leafD xs) ∧
      (∀ q, q.length = H → q ≠ bits.reverse →
        t'.node_hashes q = t.node_hashes q) := by
  obtain ⟨hh, hz, hB, hG, hC⟩ := hinv
  have hz' : t.zero_hashes.length = t.height + 1 := by
    rw [hh]
    exact hz
  have hlen' : bits.length = t.height := by
    rw [hh]
    exact hlen
  obtain ⟨t', db', hok, hih_h, hih_z, hleafv, hframe, hwrit, hmono, hform,
    hlast⟩ := update_leaf_spec FreeDigest.nodeD t db bits (.leafD xs) hz'
      hlen'
  have hh' : t'.height = H := by
    rw [hih_h]
    exact hh
  have hchild_frames : ∀ q : List Bool, q ∉ revTails bits → q.length < H →
      nodeAtD t' q = nodeAtD t q ∧
      nodeAtD t' (q ++ [false]) = nodeAtD t (q ++ [false]) ∧
      nodeAtD t' (q ++ [true]) = nodeAtD t (q ++ [true]) := by
    intro q hmem hqH
    have hqne : q ≠ bits.reverse := by
      intro he
      have : q.length = H := by
        rw [he, List.length_reverse, hlen]
      omega
    have hcf : ∀ c : Bool,
        t'.node_hashes (q ++ [c]) = t.node_hashes (q ++ [c]) := by
      intro c
      obtain ⟨hnm, hne2⟩ := @child_frame bits q c hmem (by omega)
      exact hframe _ hnm hne2
    exact ⟨nodeAtD_congr t t' q (hframe q hmem hqne) hih_z,
      nodeAtD_congr t t' _ (hcf false) hih_z,
      nodeAtD_congr t t' _ (hcf true) hih_z⟩
  refine ⟨t', db', hok, ⟨hh', by rw [hih_z]; exact hz, ?_, ?_, ?_⟩, hmono,
    hleafv, ?_⟩
  · -- TreeHashInv
    intro p hp
    have hpH : p.length < H := by
      rw [← hh']
      exact hp
    by_cases hmem : p ∈ revTails bits
    · obtain ⟨hq, hsm, hqval, _⟩ := hwrit p hmem
      rw [nodeAtD_of_some t' p hq hsm]
      exact hqval
    · obtain ⟨h0, hf, ht⟩ := hchild_frames p hmem hpH
      rw [h0, hf, ht]
      exact hB p (by rw [hh]; exact hpH)
  · -- DbGood
    intro l r n hget
    rcases hform _ _ hget with hdb | ⟨hkl, hnd⟩ | ⟨l', r', hk, hnd⟩
    · exact hG l r n hdb
    · simp at hkl
    · injection hk with h1 h2
      subst h1
      subst h2
      exact hnd
  · -- Covers
    intro p hp
    have hpH : p.length < H := by
      rw [← hh']
      exact hp
    by_cases hmem : p ∈ revTails bits
    · obtain ⟨hq, hsm, _, hdbq⟩ := hwrit p hmem
      rw [nodeAtD_of_some t' p hq hsm]
      exact hdbq
    · obtain ⟨h0, _, _⟩ := hchild_frames p hmem hpH
      rw [h0]
      exact hmono _ (hC p (by rw [hh]; exact hpH))
  · -- length-H frame
    intro q hqH hqne
    exact hframe q (not_mem_revTails_of_length (by omega)) hqne

theorem applyUpdates_preserves (H : Nat)
    (ops : List (List Bool × FreeDigest)) :
    ∀ (t : MerkleTree FreeDigest) (db : MockDB FreeDigest),
      FullInv H t db →
      (∀ op ∈ ops, op.1.length = H ∧ op.2.isLeafD = true) →
      ∃ t' db', applyUpdates FreeDigest.nodeD (t, db) ops = .ok (t', db') ∧
        FullInv H t' db' ∧
        (∀ k, (db.get k).isSome = true → (db'.get k).isSome = true) ∧
        (∀ q : List Bool, q.length = H → (∀ op ∈ ops, q ≠ op.1.reverse) →
          t'.node_hashes q = t.node_hashes q) := by
  induction ops with
  | nil =>
    intro t db hinv _
    exact ⟨t, db, rfl, hinv, fun k hk => hk, fun q _ _ => rfl⟩
  | cons op rest ih =>
    intro t db hinv hwf
    obtain ⟨bits, lh⟩ := op
    obtain ⟨hoplen, hopleaf⟩ := hwf _ (List.mem_cons_self _ _)
    obtain ⟨xs, rfl⟩ := isLeafD_exists hopleaf
    obtain ⟨ta, dba, hoka, hinva, hmona, _, hframea⟩ :=
      update_preserves_FullInv H t db bits xs hinv hoplen
    obtain ⟨t', db', hokr, hinv', hmon', hframe'⟩ := ih ta dba hinva
      (fun o ho => hwf o (List.mem_cons_of_mem _ ho))
    refine ⟨t', db', ?_, hinv', fun k hk => hmon' k (hmona k hk), ?_⟩
    · simp only [applyUpdates]
      rw [hoka]
      exact hokr
    · intro q hqH hqne
      rw [hframe' q hqH (fun o ho => hqne o (List.mem_cons_of_mem _ ho))]
      exact hframea q hqH (hqne _ (List.mem_cons_self _ _))

theorem applyUpdates_append [DecidableEq D] (t2o : D → D → D)
    (xs ys : List (List Bool × D)) :
    ∀ p : MerkleTree D × MockDB D,
      applyUpdates t2o p (xs ++ ys)
        = match applyUpdates t2o p xs with
          | .error e => .error e
          | .ok p' => applyUpdates t2o p' ys := by
  induction xs with
  | nil =>
    intro p
    obtain ⟨t, db⟩ := p
    rfl
  | cons op rest ih =>
    intro p
    obtain ⟨t, db⟩ := p
    obtain ⟨bits, lh⟩ := op
    show applyUpdates t2o (t, db) ((bits, lh) :: (rest ++ ys)) = _
    simp only [applyUpdates]
    cases MerkleTree.update_leaf t2o t db bits lh with
    | error e => rfl
    | ok p' => exact ih p'

theorem walkSibs_length [Inhabited D] (t : MerkleTree D) (s : List Bool) :
    ∀ pre : List Bool, (walkSibs t pre s).length = s.length := by
  induction s with
  | nil => intro pre; rfl
  | cons b s' ih =>
    intro pre
    simp only [walkSibs, List.length_cons]
    rw [ih]

theorem walk_ok (s : List Bool) :
    ∀ (pre : List Bool) (t : MerkleTree FreeDigest)
      (db : MockDB FreeDigest),
      TreeHashInv t → DbGood db →
      (∀ p : List Bool, p.length < t.height →
        (db.get (nodeAtD t p)).isSome = true) →
      pre.length + s.length ≤ t.height →
      pwgrAux db (nodeAtD t pre) s = .ok (walkSibs t pre s) := by
  induction s with
  | nil => intro pre t db _ _ _ _; rfl
  | cons b s' ih =>
    intro pre t db hB hG hCov hlen
    have hpre : pre.length < t.height := by
      simp only [List.length_cons] at hlen
      omega
    obtain ⟨n, hn⟩ := Option.isSome_iff_exists.mp (hCov pre hpre)
    have hroot : nodeAtD t pre
        = .nodeD (nodeAtD t (pre ++ [false])) (nodeAtD t (pre ++ [true])) :=
      hB pre hpre
    have hnval : n = ⟨some (nodeAtD t (pre ++ [false])),
        some (nodeAtD t (pre ++ [true]))⟩ := by
      apply hG
      rw [← hroot]
      exact hn
    subst hnval
    have hlen' : ∀ c : Bool, (pre ++ [c]).length + s'.length ≤ t.height := by
      intro c
      simp only [List.length_append, List.length_cons, List.length_nil]
      simp only [List.length_cons] at hlen
      omega
    simp only [pwgrAux]
    rw [hn]
    by_cases hb : b
    · subst hb
      simp only [walkSibs]
      simp [ih (pre ++ [true]) t db hB hG hCov (hlen' true)]
    · simp only [Bool.not_eq_true] at hb
      subst hb
      simp only [walkSibs]
      simp [ih (pre ++ [false]) t db hB hG hCov (hlen' false)]

theorem fold_back (s : List Bool) :
    ∀ (pre : List Bool) (t : MerkleTree FreeDigest),
      TreeHashInv t → pre.length + s.length ≤ t.height →
      List.foldr
        (fun bs st => if bs.1 then FreeDigest.nodeD bs.2 st
          else FreeDigest.nodeD st bs.2)
        (nodeAtD t (pre ++ s)) (s.zip (walkSibs t pre s))
        = nodeAtD t pre := by
  induction s with
  | nil =>
    intro pre t _ _
    simp [walkSibs]
  | cons b s' ih =>
    intro pre t hB hlen
    have hpre : pre.length < t.height := by
      simp only [List.length_cons] at hlen
      omega
    have happ : pre ++ b :: s' = (pre ++ [b]) ++ s' := by
      rw [List.append_cons]
    simp only [walkSibs, List.zip_cons_cons, List.foldr_cons]
    rw [happ, ih (pre ++ [b]) t hB
      (by simp only [List.length_append, List.length_cons, List.length_nil]
          simp only [List.length_cons] at hlen
          omega)]
    by_cases hb : b
    · subst hb
      show FreeDigest.nodeD (nodeAtD t (pre ++ [!true]))
        (nodeAtD t (pre ++ [true])) = nodeAtD t pre
      rw [show (!true) = false from rfl]
      exact (hB pre hpre).symm
    · simp only [Bool.not_eq_true] at hb
      subst hb
      show FreeDigest.nodeD (nodeAtD t (pre ++ [false]))
        (nodeAtD t (pre ++ [!false])) = nodeAtD t pre
      rw [show (!false) = true from rfl]
      exact (hB pre hpre).symm

theorem zip_reverse_eq (A : List α) (B : List β) (h : A.length = B.length) :
    A.reverse.zip B.reverse = (A.zip B).reverse := by
  induction A generalizing B with
  | nil =>
    cases B with
    | nil => rfl
    | cons b B => simp at h
  | cons a A ihA =>
    cases B with
    | nil => simp at h
    | cons b B =>
      have hlen : A.length = B.length := by simpa using h
      simp only [List.reverse_cons, List.zip_cons_cons]
      rw [List.zip_append (by simp [hlen])]
      rw [ihA B hlen]
      rfl

theorem verFold_reverse (t2o : D → D → D) (init : D) (L : List (Bool × D)) :
    verFold t2o init L.reverse
      = L.foldr (fun bs st => if bs.1 then t2o bs.2 st else t2o st bs.2)
          init := by
  unfold verFold
  rw [List.foldl_reverse]

/-- C2: the height-32 historical-root scenario.  Starting from a fresh tree,
update leaves 0..9 (digests `hashNat i`), record `root1`; update leaves
10..19; then the proof returned by `prove_with_given_root(root1, bits(6))`
reconstructs `root1` from leaf 6 — valid against the historical root,
independently of the tree's current state. -/
theorem c2_historical_root_scenario :
    ∃ t1 db1, applyUpdates FreeDigest.nodeD scenInit ops1 = .ok (t1, db1) ∧
    ∃ r1, t1.get_root = .ok r1 ∧
    ∃ t2 db2,
      applyUpdates FreeDigest.nodeD (t1, db1) ops2 = .ok (t2, db2) ∧
    ∃ pf, t2.prove_with_given_root db2 r1 (usize_le_bits 6 32) = .ok pf ∧
      pf.get_root FreeDigest.nodeD hashNat 6 (usize_le_bits 6 32) = r1 := by
  have hinv0 : FullInv 32 scenInit.1 scenInit.2 := new_FullInv 32 emptyLeafFD
  have hsplit : ops1
      = ((List.range 6).map (fun i => (usize_le_bits i 32, hashNat i)))
        ++ ((usize_le_bits 6 32, hashNat 6)
          :: [(usize_le_bits 7 32, hashNat 7),
              (usize_le_bits 8 32, hashNat 8),
              (usize_le_bits 9 32, hashNat 9)]) := by rfl
  obtain ⟨tA, dbA, hokA, hinvA, hmonA, _⟩ :=
    applyUpdates_preserves 32
      ((List.range 6).map (fun i => (usize_le_bits i 32, hashNat i)))
      scenInit.1 scenInit.2 hinv0 (by decide)
  obtain ⟨tB, dbB, hokB, hinvB, hmonB, hleafB, _⟩ :=
    update_preserves_FullInv 32 tA dbA (usize_le_bits 6 32) [6] hinvA
      (by decide)
  obtain ⟨t1, db1, hokC, hinv1, hmonC, hframeC⟩ :=
    applyUpdates_preserves 32
      [(usize_le_bits 7 32, hashNat 7), (usize_le_bits 8 32, hashNat 8),
       (usize_le_bits 9 32, hashNat 9)] tB dbB hinvB (by decide)
  have hleaf1 : t1.node_hashes ((usize_le_bits 6 32).reverse)
      = some (.leafD [6]) := by
    rw [hframeC _ (by decide) (by decide)]
    exact hleafB
  have hokA' : applyUpdates FreeDigest.nodeD scenInit
      ((List.range 6).map (fun i => (usize_le_bits i 32, hashNat i)))
      = .ok (tA, dbA) := hokA
  have hokB' : MerkleTree.update_leaf FreeDigest.nodeD tA dbA
      (usize_le_bits 6 32) (hashNat 6) = .ok (tB, dbB) := hokB
  have hok1 : applyUpdates FreeDigest.nodeD scenInit ops1 = .ok (t1, db1) := by
    rw [hsplit, applyUpdates_append, hokA']
    show applyUpdates FreeDigest.nodeD (tA, dbA)
      ((usize_le_bits 6 32, hashNat 6)
        :: [(usize_le_bits 7 32, hashNat 7), (usize_le_bits 8 32, hashNat 8),
            (usize_le_bits 9 32, hashNat 9)]) = .ok (t1, db1)
    simp only [applyUpdates]
    rw [hokB']
    exact hokC
  obtain ⟨t2, db2, hok2, hinv2, hmon2, _⟩ :=
    applyUpdates_preserves 32 ops2 t1 db1 hinv1 (by decide)
  obtain ⟨hh1, hzl1, hB1, hG1, hC1⟩ := hinv1
  obtain ⟨hh2, hzl2, hB2, hG2, hC2⟩ := hinv2
  have hz1 : t1.zero_hashes.length = t1.height + 1 := by rw [hzl1, hh1]
  have hroot1 : t1.get_root = .ok (nodeAtD t1 []) := get_root_ok t1 hz1
  have hcov12 : ∀ p : List Bool, p.length < t1.height →
      (db2.get (nodeAtD t1 p)).isSome = true := by
    intro p hp
    exact hmon2 _ (hC1 p hp)
  have hwalk := walk_ok ((usize_le_bits 6 32).reverse) [] t1 db2 hB1 hG2
    hcov12 (by rw [hh1]; decide)
  have hlen6 : (usize_le_bits 6 32).length = t2.height := by
    rw [hh2]
    decide
  have hpwgr : t2.prove_with_given_root db2 (nodeAtD t1 [])
      (usize_le_bits 6 32)
      = .ok ⟨(walkSibs t1 [] ((usize_le_bits 6 32).reverse)).reverse⟩ := by
    rw [prove_with_given_root_eq, if_pos hlen6, hwalk]
  have hleafval : nodeAtD t1 ((usize_le_bits 6 32).reverse) = hashNat 6 :=
    nodeAtD_of_some t1 _ _ hleaf1
  have hfold := fold_back ((usize_le_bits 6 32).reverse) [] t1 hB1
    (by rw [hh1]; decide)
  simp only [List.nil_append] at hfold
  have hlenW : ((usize_le_bits 6 32).reverse).length
      = (walkSibs t1 [] ((usize_le_bits 6 32).reverse)).length :=
    (walkSibs_length t1 _ []).symm
  have hgrW : ∀ W : List FreeDigest,
      ((usize_le_bits 6 32).reverse).length = W.length →
      List.foldr
        (fun bs st => if bs.1 then FreeDigest.nodeD bs.2 st
          else FreeDigest.nodeD st bs.2)
        (nodeAtD t1 ((usize_le_bits 6 32).reverse))
        (((usize_le_bits 6 32).reverse).zip W) = nodeAtD t1 [] →
      MerkleProof.get_root FreeDigest.nodeD hashNat ⟨W.reverse⟩ 6
        (usize_le_bits 6 32) = nodeAtD t1 [] := by
    intro W hlenw hfoldw
    rw [proof_get_root_eq_verFold]
    show verFold FreeDigest.nodeD (hashNat 6)
      ((usize_le_bits 6 32).zip W.reverse) = nodeAtD t1 []
    rw [show usize_le_bits 6 32
      = ((usize_le_bits 6 32).reverse).reverse from
        (List.reverse_reverse _).symm]
    rw [zip_reverse_eq ((usize_le_bits 6 32).reverse) W hlenw,
      verFold_reverse]
    rw [← hleafval]
    exact hfoldw
  have hgr := hgrW (walkSibs t1 [] ((usize_le_bits 6 32).reverse)) hlenW
    hfold
  exact ⟨t1, db1, hok1, nodeAtD t1 [], hroot1, t2, db2, hok2,
    ⟨(walkSibs t1 [] ((usize_le_bits 6 32).reverse)).reverse⟩, hpwgr, hgr⟩
